import Mathlib

/-!
# Verification of the claripy Z3 backend (`claripy/backends/backend_z3.py`)

A shallow embedding of the backend's algorithms, with the external Z3
engine modelled by its documented interface: a `check` call over a finite
solution space, native terms as a first-order term datatype, and the
native reference counter as an explicit counter map.

Conventions:
* Python machine integers are `Int`/`Nat`; Python `//` on ints is floor
  division, which for the positive divisor 2 coincides with `Int` division
  (`Int.ediv`) used here.
* Fallible code returns `Except`; raised exceptions are explicit outcome
  constructors.
-/

namespace Claripy

/-! ## `z3_solver_sat` (backend_z3.py lines 129-141) -/

/-- Result of a native `solver.check(extra_constraints)` call: `sat`,
`unsat`, or `unknown` together with the string from `reason_unknown()`. -/
inductive Z3CheckResult where
  | sat
  | unsat
  | unknown (reason : String)
deriving DecidableEq

/-- Outcome of `z3_solver_sat`: a boolean return value, or one of the three
raised exception kinds (`KeyboardInterrupt`, `ClaripySolverInterruptError`,
`ClaripyZ3Error`). -/
inductive SatOutcome where
  | ret (b : Bool)
  | keyboardInterrupt
  | solverInterrupt (reason : String)
  | z3Error (msg : String)
deriving DecidableEq

/-- The interruption reasons tested on line 136:
`("interrupted from keyboard", "interrupted")`. -/
def interruptionReasons : List String :=
  ["interrupted from keyboard", "interrupted"]

/-- The resource-limit reasons tested on line 138:
`("timeout", "max. resource limit exceeded", "max. memory exceeded")`. -/
def resourceReasons : List String :=
  ["timeout", "max. resource limit exceeded", "max. memory exceeded"]

/-- The function `z3_solver_sat` (lines 129-141): returns `result == z3.sat`, and
classifies an `unknown` result by its reason string. -/
def z3_solver_sat : Z3CheckResult → SatOutcome
  | .sat => .ret true
  | .unsat => .ret false
  | .unknown reason =>
    if reason ∈ interruptionReasons then .keyboardInterrupt
    else if reason ∈ resourceReasons then .solverInterrupt reason
    else .z3Error ("solver unknown: " ++ reason)

/-! ## `BackendZ3._extrema` (lines 841-884)

The solver is modelled by the finite set `sols : List Int` of values the
queried bitvector expression can take under the session assertions plus
`extra_constraints` (signed or unsigned interpretation matching the
`signed` flag).  A native check of
`constraints + [And(GE(expr, a), LE(expr, b))]` is satisfiable exactly
when some element of `sols` lies in `[a, b]`. -/

/-- One native check of the range constraint `a <= expr <= b`
(lines 862-867). -/
def satInRange (sols : List Int) (a b : Int) : Bool :=
  sols.any fun v => decide (a ≤ v ∧ v ≤ b)

/-- The binary-search loop of `_extrema` (lines 855-884): while
`hi - lo > 1`, check the half interval `[middle, hi]` (maximisation) or
`[lo, middle]` (minimisation) with `middle = (lo + hi) // 2`; on
`sat == is_max` set `lo = middle`, otherwise `hi = middle`.  Afterwards,
one final check of `expr == (hi if is_max else lo)` decides which
boundary is returned (lines 880-884). -/
def extremaSearch (isMax : Bool) (sols : List Int) (lo hi : Int) : Int :=
  if 1 < hi - lo then
    if (if isMax then satInRange sols ((lo + hi) / 2) hi
        else satInRange sols lo ((lo + hi) / 2)) = isMax then
      extremaSearch isMax sols ((lo + hi) / 2) hi
    else
      extremaSearch isMax sols lo ((lo + hi) / 2)
  else
    if sols.contains (if isMax then hi else lo) = isMax then hi else lo
termination_by (hi - lo).toNat
decreasing_by
  · omega
  · omega

/-- The method `BackendZ3._extrema` (lines 841-884): search domain `[0, 2^w - 1]`
unsigned or `[-2^(w-1), 2^(w-1) - 1]` signed (lines 845-846), then run the
binary search. -/
def extrema (isMax : Bool) (signed : Bool) (w : Nat) (sols : List Int) : Int :=
  extremaSearch isMax sols
    (if signed then -(2 ^ (w - 1)) else 0)
    (if signed then 2 ^ (w - 1) - 1 else 2 ^ w - 1)

/-! ## `BackendZ3._batch_eval` (lines 799-839)

The joint solution space of the queried expressions is the finite list
`sols` of distinct joint-assignment tuples satisfying the session
assertions plus `extra_constraints`.  The incremental solver's scope
stack is explicit: each frame holds the blocking constraints added in
that scope, and a blocking constraint excludes exactly one tuple (the
single-expression inequality when `len(exprs) == 1`, else the negated
conjunction of per-expression equalities, lines 827-834).  Z3's model
choice is an arbitrary choice function `pick` that returns an element of
the still-feasible set, or `none` when that set is empty (an unsat
check). -/

/-- A joint assignment: one concrete value per queried expression. -/
abbrev Assignment := List Int

/-- The native solver's scope stack; each frame lists the blocked tuples
of the blocking constraints added in that scope, newest frame first. -/
abbrev ScopeStack := List (List Assignment)

/-- All tuples excluded by blocking constraints in any live scope. -/
def blockedTuples (st : ScopeStack) : List Assignment := st.flatten

/-- Model of `solver.push()` (line 804). -/
def scopePush (st : ScopeStack) : ScopeStack := [] :: st

/-- Model of `solver.pop()` (line 837). -/
def scopePop (st : ScopeStack) : ScopeStack := st.tail

/-- Model of `solver.add(<blocking constraint excluding r>)` (lines 829-833):
the constraint lands in the innermost live scope. -/
def scopeAdd (st : ScopeStack) (r : Assignment) : ScopeStack :=
  match st with
  | f :: rest => (r :: f) :: rest
  | [] => [[r]]

/-- The joint assignments still satisfiable: the solution space minus
every blocked tuple. -/
def feasible (sols : List Assignment) (st : ScopeStack) : List Assignment :=
  sols.filter fun t => !(blockedTuples st).contains t

/-- Observable effects of one `_batch_eval` loop run: the accumulated
`result_values`, the final scope stack, the number of native check calls,
and the number of blocking constraints added. -/
structure BatchLoopOut where
  results : List Assignment
  state : ScopeStack
  checks : Nat
  adds : Nat
deriving DecidableEq

/-- The `for i in range(n)` loop of `_batch_eval` (lines 806-834), with
`rem = n - i` iterations remaining.  Each iteration runs one check; an
unsat check breaks out of the loop; on sat, the model tuple is appended
and, unless this was the final requested iteration (`i + 1 != n`, i.e.
`rem != 1`), a blocking constraint excluding the tuple is added. -/
def batchEvalLoop (pick : List Assignment → Option Assignment)
    (sols : List Assignment) :
    Nat → ScopeStack → List Assignment → BatchLoopOut
  | 0, st, acc => ⟨acc, st, 0, 0⟩
  | rem + 1, st, acc =>
    match pick (feasible sols st) with
    | none => ⟨acc, st, 1, 0⟩
    | some r =>
      let st1 := if rem = 0 then st else scopeAdd st r
      let out := batchEvalLoop pick sols rem st1 (acc ++ [r])
      ⟨out.results, out.state, out.checks + 1,
        out.adds + (if rem = 0 then 0 else 1)⟩

/-- Observable effects of a whole `_batch_eval` call. -/
structure BatchRunOut where
  results : List Assignment
  state : ScopeStack
  checks : Nat
  adds : Nat
  pushes : Nat
  pops : Nat
deriving DecidableEq

/-- The method `BackendZ3._batch_eval` (lines 799-839): `push` when `n > 1`
(lines 803-804), run the loop, `pop` when `n > 1` (lines 836-837). -/
def batchEval (pick : List Assignment → Option Assignment)
    (sols : List Assignment) (n : Nat) (st : ScopeStack) : BatchRunOut :=
  let st0 := if 1 < n then scopePush st else st
  let out := batchEvalLoop pick sols n st0 []
  ⟨out.results,
    if 1 < n then scopePop out.state else out.state,
    out.checks, out.adds,
    if 1 < n then 1 else 0,
    if 1 < n then 1 else 0⟩

/-! ## The per-thread AST cache (`SmartLRUCache`, lines 144-153;
`_pop_from_ast_cache`, lines 297-299; insertions at lines 561-562 and
751; `downsize`, lines 286-291)

The native reference counter is explicit: `refs` records, per raw native
term handle, the net number of `Z3_inc_ref` minus `Z3_dec_ref` calls the
cache bookkeeping has issued for it. -/

/-- The per-thread AST cache plus the net native references its
bookkeeping holds.  `entries` maps the claripy AST hash of a native term
to the raw native term handle, most recently inserted first. -/
structure AstCacheState where
  maxsize : Nat
  entries : List (Nat × Nat)
  refs : List (Nat × Int)
deriving DecidableEq

/-- Net `Z3_inc_ref` minus `Z3_dec_ref` calls issued for handle `a`. -/
def refGet (refs : List (Nat × Int)) (a : Nat) : Int :=
  match refs.lookup a with
  | some v => v
  | none => 0

/-- Record one reference-count change of `d` for handle `a`. -/
def refBump (refs : List (Nat × Int)) (a : Nat) (d : Int) : List (Nat × Int) :=
  (a, refGet refs a + d) :: refs

/-- The method `SmartLRUCache.popitem` (lines 149-153): drop the least-recently-used
entry and run the evict callback `_pop_from_ast_cache` (lines 297-299),
which calls `Z3_dec_ref` on the stored raw native term. -/
def cachePopitem (c : AstCacheState) : AstCacheState :=
  match c.entries.getLast? with
  | none => c
  | some (_, a) => { c with entries := c.entries.dropLast, refs := refBump c.refs a (-1) }

/-- Evict least-recently-used entries while the cache is at capacity
(the `LRUCache.__setitem__` eviction loop), fuelled by the entry count. -/
def evictUntilRoom (c : AstCacheState) : Nat → AstCacheState
  | 0 => c
  | fuel + 1 =>
    if c.maxsize ≤ c.entries.length then evictUntilRoom (cachePopitem c) fuel else c

/-- Model of `self._ast_cache[h] = (a, ast)`: replace in place when the key is
present; otherwise evict until there is room, then insert most-recent. -/
def cacheSetItem (c : AstCacheState) (h a : Nat) : AstCacheState :=
  if (c.entries.lookup h).isSome then
    { c with entries := c.entries.map fun e => if e.1 = h then (h, a) else e }
  else
    let c1 := evictUntilRoom c c.entries.length
    { c1 with entries := (h, a) :: c1.entries }

/-- The abstraction-path insertion (lines 561-562):
`self._ast_cache[h] = (a, ast)` followed by `z3.Z3_inc_ref(ctx, ast)`. -/
def cacheInsertAbstract (c : AstCacheState) (h a : Nat) : AstCacheState :=
  let c1 := cacheSetItem c h a
  { c1 with refs := refBump c1.refs a 1 }

/-- The tracking-path insertion (`BackendZ3.add`, line 751):
`self._ast_cache[h] = (a, ast)` with no accompanying `Z3_inc_ref`. -/
def cacheInsertTrack (c : AstCacheState) (h a : Nat) : AstCacheState :=
  cacheSetItem c h a

/-- The clearing loop behind `downsize` (line 289,
`self._ast_cache.clear()`): repeatedly pop items — running the evict
callback each time — until the cache is empty. -/
def cacheClearAux (c : AstCacheState) : Nat → AstCacheState
  | 0 => c
  | fuel + 1 => if c.entries.isEmpty then c else cacheClearAux (cachePopitem c) fuel

/-- The method `BackendZ3.downsize` restricted to the AST cache (line 289). -/
def cacheClear (c : AstCacheState) : AstCacheState :=
  cacheClearAux c c.entries.length

/-! ## The bidirectional translation layer

The expression IR and the `Backend.convert` driver live outside this
backend file; they are modelled from the spec (immutable nodes with an
`(operation, args, length)` shape, a dispatch table keyed by operation
tag, per-operator result-length functions).  The per-operator native
constructors, the operator aliases installed in `BackendZ3.__init__`
(lines 177-210), the left-fold lowering of reduceable operators
(lines 934-956 and 1083-1102), the `op_map` operator table
(lines 1264-1540) and the abstraction algorithm
`BackendZ3._abstract_internal` (lines 425-563) are embedded from the
source over a representative operator fragment (booleans, equality,
unsigned comparisons and their dunder aliases, bitvector addition,
concatenation, extraction, zero-extension, if-then-else, literals and
symbols). -/

/-- Modelled from the spec (§3, and line 480 of the source): the
construction-argument tuple the expression layer stores in a `BVS` node.
The abstraction fallback synthesizes
`(symbol_str, None, None, None, False, False, None)`. -/
structure BVSMeta where
  symName : String
  minVal : Option Int
  maxVal : Option Int
  stride : Option Int
  uninitialized : Bool
  discreteSet : Bool
  discreteSetMaxCard : Option Int
deriving DecidableEq

/-- The minimal synthetic metadata tuple of line 480:
`(symbol_str, None, None, None, False, False, None)`. -/
def defaultBVSMeta (name : String) : BVSMeta :=
  ⟨name, none, none, none, false, false, none⟩

/-- Modelled from the spec (§3): an immutable IR expression node —
operation tag, ordered arguments, optional bit-length.  Leading primitive
integer arguments (`Extract` bounds, extension widths) are kept in
`params`; `annots` on a symbol node models its annotation tuple. -/
inductive Node where
  | BoolV (b : Bool)
  | BoolS (name : String)
  | BVV (v : Nat) (w : Nat)
  | BVS (meta : BVSMeta) (annots : Option (List String)) (name : String) (w : Nat)
  | App (op : String) (params : List Int) (args : List Node) (len : Option Nat)

/-- A native sort, as far as the abstraction of the modelled fragment
consults it (`Z3_get_sort_kind` / `Z3_get_bv_sort_size`). -/
inductive ZSort where
  | boolSort
  | bvSort (w : Nat)
deriving DecidableEq

/-- A native Z3 term of the modelled fragment: the `true`/`false`
applications, bitvector numerals, zero-argument uninterpreted constants
(symbols), and operator applications carrying their declaration kind and
declaration integer parameters. -/
inductive ZTerm where
  | ztrue
  | zfalse
  | bvnum (v : Nat) (w : Nat)
  | uninterpConst (name : String) (sort : ZSort)
  | app (declKind : String) (params : List Int) (args : List ZTerm)

/-- The fragment of the source's `op_map` (lines 1264-1540) covering the
modelled operators, together with representative entries the source maps
to `None` (`Z3_OP_BNAND`, `Z3_OP_BNOR`, `Z3_OP_SELECT`). -/
def op_map : List (String × Option String) :=
  [("Z3_OP_TRUE", some "True"),
   ("Z3_OP_FALSE", some "False"),
   ("Z3_OP_AND", some "And"),
   ("Z3_OP_OR", some "Or"),
   ("Z3_OP_NOT", some "Not"),
   ("Z3_OP_EQ", some "__eq__"),
   ("Z3_OP_UGEQ", some "UGE"),
   ("Z3_OP_UGT", some "UGT"),
   ("Z3_OP_ULEQ", some "ULE"),
   ("Z3_OP_ULT", some "ULT"),
   ("Z3_OP_BADD", some "__add__"),
   ("Z3_OP_CONCAT", some "Concat"),
   ("Z3_OP_EXTRACT", some "Extract"),
   ("Z3_OP_ZERO_EXT", some "ZeroExt"),
   ("Z3_OP_ITE", some "If"),
   ("Z3_OP_BNUM", some "BitVecVal"),
   ("Z3_OP_UNINTERPRETED", some "UNINTERPRETED"),
   ("Z3_OP_BNAND", none),
   ("Z3_OP_BNOR", none),
   ("Z3_OP_SELECT", none)]

/-- The symbol metadata side-table `extra_bvs_data` (lines 217-224):
encoded symbol name to `(construction args, annotations)`; assignment
prepends, lookup finds the most recent binding. -/
abbrev SymTable := List (String × (BVSMeta × Option (List String)))

/-- Model of `self.extra_bvs_data.get(symbol_name, ...)` (line 478). -/
def symLookup (T : SymTable) (name : String) : Option (BVSMeta × Option (List String)) :=
  T.lookup name

/-- The left-fold lowering of a reduceable operator
(`reduce(operator.X, args)`, lines 934-956, and the `_op_raw_Concat`
loop, lines 1083-1102): a tree of binary native applications. -/
def foldBin (declKind : String) : List ZTerm → ZTerm
  | t :: ts => ts.foldl (fun acc x => .app declKind [] [acc, x]) t
  | [] => .app declKind [] []

mutual
/-- Lowering (IR node to native term): the `Backend.convert` driver
(modelled from the spec §4.2) dispatching through the operator table
built in `BackendZ3.__init__` (lines 177-210) to the per-operator native
constructors of the source.  The dunder comparison aliases lower to the
unsigned comparison constructors (lines 183-186); `__add__` and `Concat`
lower by a left fold of the binary native call; `BoolV`/`BVV` lower to
native literals (lines 319-326, 364-368); symbols lower to uninterpreted
constants of the matching sort (lines 305-316, 355-362). -/
def conv : Node → ZTerm
  | .BoolV b => if b then .ztrue else .zfalse
  | .BoolS name => .uninterpConst name .boolSort
  | .BVV v w => .bvnum (v % 2 ^ w) w
  | .BVS _ _ name w => .uninterpConst name (.bvSort w)
  | .App op params args _ =>
    match op with
    | "And" => .app "Z3_OP_AND" [] (convList args)
    | "Or" => .app "Z3_OP_OR" [] (convList args)
    | "Not" => .app "Z3_OP_NOT" [] (convList args)
    | "__eq__" => .app "Z3_OP_EQ" [] (convList args)
    | "UGE" => .app "Z3_OP_UGEQ" [] (convList args)
    | "__ge__" => .app "Z3_OP_UGEQ" [] (convList args)
    | "UGT" => .app "Z3_OP_UGT" [] (convList args)
    | "__gt__" => .app "Z3_OP_UGT" [] (convList args)
    | "ULE" => .app "Z3_OP_ULEQ" [] (convList args)
    | "__le__" => .app "Z3_OP_ULEQ" [] (convList args)
    | "ULT" => .app "Z3_OP_ULT" [] (convList args)
    | "__lt__" => .app "Z3_OP_ULT" [] (convList args)
    | "__add__" => foldBin "Z3_OP_BADD" (convList args)
    | "Concat" => foldBin "Z3_OP_CONCAT" (convList args)
    | "Extract" => .app "Z3_OP_EXTRACT" params (convList args)
    | "ZeroExt" => .app "Z3_OP_ZERO_EXT" params (convList args)
    | "If" => .app "Z3_OP_ITE" [] (convList args)
    | _ => .app "CONV_UNSUPPORTED" [] []

def convList : List Node → List ZTerm
  | [] => []
  | a :: as => conv a :: convList as
end

mutual
/-- The `extra_bvs_data` registrations performed while lowering:
`BackendZ3.BVS` (line 308) records `(ast.args, ast.annotations)` under
the encoded symbol name, depth-first left to right. -/
def tableAfter : Node → SymTable → SymTable
  | .BVS meta an name _, T => (name, (meta, an)) :: T
  | .App _ _ args _, T => tableAfterList args T
  | _, T => T

def tableAfterList : List Node → SymTable → SymTable
  | [], T => T
  | a :: as, T => tableAfterList as (tableAfter a T)
end

/-- The abstraction errors raised on lines 437-440:
`"unknown decl kind %d"` when the declaration kind is not a known native
operator code, `"unknown decl op %s"` when `op_map` maps it to `None`. -/
inductive AbstractError where
  | unknownDeclKind (declKind : String)
  | unknownDeclOp (declKind : String)
deriving DecidableEq

/-- The declared bit-length of a node (`ast.length`); `none` for
boolean-sorted nodes. -/
def nodeLen : Node → Option Nat
  | .BoolV _ => none
  | .BoolS _ => none
  | .BVV _ w => some w
  | .BVS _ _ _ w => some w
  | .App _ _ _ l => l

/-- Sum of the bit-lengths of a list of nodes (the `Concat` length). -/
def sumLens : List Node → Option Nat
  | [] => some 0
  | c :: cs =>
    match nodeLen c, sumLens cs with
    | some a, some b => some (a + b)
    | _, _ => none

/-- Modelled from the spec (§4.1): the per-operator result-length
function `op.calc_length` consulted on lines 553-555; boolean-sorted
operators have none. -/
def opCalcLength (opName : String) (params : List Int) (children : List Node) : Option Nat :=
  match opName, params, children with
  | "__add__", _, c :: _ => nodeLen c
  | "Concat", _, cs => sumLens cs
  | "Extract", [hi, lo], _ => some (hi - lo + 1).toNat
  | "ZeroExt", [k], c :: _ => (nodeLen c).map fun w => k.toNat + w
  | _, _, _ => none

/-- Reconstruction of the result node (lines 528-559): declaration
parameters first, then the abstracted children; `If` is polymorphic and
takes its length from its second argument (lines 543-547), every other
operator from its length function. -/
def buildNode (opName : String) (params : List Int) (children : List Node) : Node :=
  if opName = "If" then
    .App "If" params children
      (match children.get? 1 with
       | some t => nodeLen t
       | none => none)
  else
    .App opName params children (opCalcLength opName params children)

mutual
/-- Abstraction (native term to IR node):
`BackendZ3._abstract_internal` (lines 425-563) over the modelled
fragment, without the memoization cache (the cache only returns the node
previously abstracted from the same native term, so it does not change
the result).  The declaration kind is resolved through `op_map` before
any recursion (lines 437-441); `true`/`false`/numerals return literal
nodes; a zero-argument uninterpreted constant of bitvector sort recovers
its construction metadata from the side-table, falling back to the
minimal synthetic tuple (lines 471-490); child abstraction errors
propagate. -/
def abstractZ (T : SymTable) : ZTerm → Except AbstractError Node
  | .ztrue => .ok (.BoolV true)
  | .zfalse => .ok (.BoolV false)
  | .bvnum v w => .ok (.BVV v w)
  | .uninterpConst name s =>
    match s with
    | .boolSort => .ok (.BoolS name)
    | .bvSort w =>
      match symLookup T name with
      | some (meta, an) => .ok (.BVS meta an name w)
      | none => .ok (.BVS (defaultBVSMeta name) none name w)
  | .app declKind params args =>
    match List.lookup declKind op_map with
    | none => .error (.unknownDeclKind declKind)
    | some none => .error (.unknownDeclOp declKind)
    | some (some opName) =>
      match abstractZList T args with
      | .error e => .error e
      | .ok children => .ok (buildNode opName params children)

def abstractZList (T : SymTable) : List ZTerm → Except AbstractError (List Node)
  | [] => .ok []
  | t :: ts =>
    match abstractZ T t with
    | .error e => .error e
    | .ok n =>
      match abstractZList T ts with
      | .error e => .error e
      | .ok ns => .ok (n :: ns)
end

/-- Shape of a well-formed `Extract` node: bounds within the operand's
width and the extracted length recorded. -/
def extractShape (hi lo : Int) (a : Node) (len : Option Nat) : Bool :=
  match nodeLen a with
  | some w => decide (0 ≤ lo) && decide (lo ≤ hi) && decide (hi < (w : Int))
      && len == some (hi - lo + 1).toNat
  | none => false

/-- Shape of a well-formed `ZeroExt` node: nonnegative extension width
and the extended length recorded. -/
def zeroExtShape (k : Int) (a : Node) (len : Option Nat) : Bool :=
  match nodeLen a with
  | some w => decide (0 ≤ k) && len == some (k.toNat + w)
  | none => false

/-- Shape of a well-formed unary boolean operand list (`Not`). -/
def unaryBoolArm (args : List Node) : Bool :=
  match args with
  | [a] => nodeLen a == none
  | _ => false

/-- Shape of a well-formed binary same-width bitvector operand list
(equality and the unsigned comparisons). -/
def binaryCmpArm (args : List Node) : Bool :=
  match args with
  | [a, b] => (nodeLen a).isSome && nodeLen a == nodeLen b
  | _ => false

/-- Shape of a well-formed `__add__` node: at least two same-width
bitvector operands, `len` equal to the first operand's length. -/
def addArm (args : List Node) (len : Option Nat) : Bool :=
  match args with
  | a :: rest => !rest.isEmpty && (nodeLen a).isSome
      && rest.all (fun x => nodeLen x == nodeLen a) && len == nodeLen a
  | [] => false

/-- At least two operands (`Concat`). -/
def concatArm (args : List Node) : Bool :=
  match args with
  | _ :: rest => !rest.isEmpty
  | [] => false

/-- Shape of a well-formed `Extract` node's parameters and operand. -/
def extractArm (params : List Int) (args : List Node) (len : Option Nat) : Bool :=
  match params, args with
  | [hi, lo], [a] => extractShape hi lo a len
  | _, _ => false

/-- Shape of a well-formed `ZeroExt` node's parameter and operand. -/
def zeroExtArm (params : List Int) (args : List Node) (len : Option Nat) : Bool :=
  match params, args with
  | [k], [a] => zeroExtShape k a len
  | _, _ => false

/-- Shape of a well-formed `If` node: boolean condition, same-width
bitvector branches, `len` equal to the second argument's length. -/
def iteArm (args : List Node) (len : Option Nat) : Bool :=
  match args with
  | [c, t, e] => nodeLen c == none && (nodeLen t).isSome
      && nodeLen t == nodeLen e && len == nodeLen t
  | _ => false

/-- Shape well-formedness of one application node, as the expression
layer constructs it (modelled from the spec §3/§4.1): known operator,
construction arity, sort-compatible operands, and a `len` field equal to
the per-operator length rule. -/
def goodShape (op : String) (params : List Int) (args : List Node) (len : Option Nat) : Bool :=
  if op = "And" ∨ op = "Or" then
    params == ([] : List Int) && !args.isEmpty
      && args.all (fun a => nodeLen a == none) && len == none
  else if op = "Not" then
    params == ([] : List Int) && unaryBoolArm args && len == none
  else if op = "__eq__" ∨ op = "UGE" ∨ op = "UGT" ∨ op = "ULE" ∨ op = "ULT"
      ∨ op = "__ge__" ∨ op = "__gt__" ∨ op = "__le__" ∨ op = "__lt__" then
    params == ([] : List Int) && binaryCmpArm args && len == none
  else if op = "__add__" then
    params == ([] : List Int) && addArm args len
  else if op = "Concat" then
    params == ([] : List Int) && concatArm args
      && args.all (fun x => (nodeLen x).isSome) && len == sumLens args
  else if op = "Extract" then
    extractArm params args len
  else if op = "ZeroExt" then
    zeroExtArm params args len
  else if op = "If" then
    params == ([] : List Int) && iteArm args len
  else false

mutual
/-- A constructible node of the modelled fragment: every application is
shape well-formed and every concrete bitvector value is reduced
modulo `2^w` (the expression layer normalizes literals). -/
def good : Node → Bool
  | .App op params args len => goodList args && goodShape op params args len
  | .BVV v w => decide (v < 2 ^ w)
  | _ => true

def goodList : List Node → Bool
  | [] => true
  | a :: as => good a && goodList as
end

mutual
/-- Tag- and arity-stable nodes: no dunder comparison alias
(`__ge__`/`__gt__`/`__le__`/`__lt__`, which lower to the differently
named unsigned comparisons, lines 183-186) and no application of a
fold-lowered reduceable operator to more than two operands (the fold
produces a tree of binary native applications). -/
def stable : Node → Bool
  | .App op _ args _ =>
    stableList args
      && !(["__ge__", "__gt__", "__le__", "__lt__"].contains op)
      && (!(["__add__", "Concat"].contains op) || args.length == 2)
  | _ => true

def stableList : List Node → Bool
  | [] => true
  | a :: as => stable a && stableList as
end

mutual
/-- All bitvector-symbol leaves of a node, left to right:
`(encoded name, construction args, annotations, bit-width)`. -/
def bvsLeaves : Node → List (String × BVSMeta × Option (List String) × Nat)
  | .BVS meta an name w => [(name, meta, an, w)]
  | .App _ _ args _ => bvsLeavesList args
  | _ => []

def bvsLeavesList : List Node → List (String × BVSMeta × Option (List String) × Nat)
  | [] => []
  | a :: as => bvsLeaves a ++ bvsLeavesList as
end

/-- Any two symbol leaves sharing an encoded name agree on metadata,
annotations and width (distinct symbols get distinct encoded names). -/
def symsConsistent (n : Node) : Bool :=
  (bvsLeaves n).all fun l1 =>
    (bvsLeaves n).all fun l2 => decide (l1.1 = l2.1 → l1 = l2)

/-- The operation tag of a node. -/
def nodeOp : Node → String
  | .BoolV _ => "BoolV"
  | .BoolS _ => "BoolS"
  | .BVV _ _ => "BVV"
  | .BVS _ _ _ _ => "BVS"
  | .App op _ _ _ => op

/-- The operation tag of an abstraction result (`"<error>"` on error). -/
def resultOp : Except AbstractError Node → String
  | .ok n => nodeOp n
  | .error _ => "<error>"

/-- A concrete constructible node using a dunder comparison alias:
`BVV(1, 8) >= BVV(2, 8)` with operation tag `__ge__`. -/
def geAliasNode : Node :=
  .App "__ge__" [] [.BVV 1 8, .BVV 2 8] none

mutual
/-- Structural size of a node, used as the recursion measure. -/
def nodeSize : Node → Nat
  | .App _ _ args _ => 1 + nodeSizeList args
  | _ => 1

def nodeSizeList : List Node → Nat
  | [] => 0
  | a :: as => nodeSize a + nodeSizeList as
end

/-- A constructible, tag- and arity-stable node exercising symbols (one
of them repeated, one annotated), literals, comparison, fold-lowered
operators at arity two, extraction, extension and if-then-else. -/
def roundtripSampleNode : Node :=
  .App "If" []
    [.App "ULT" [] [.BVS (defaultBVSMeta "x") none "x" 8, .BVV 5 8] none,
     .App "Concat" []
       [.BVV 1 4, .BVS (defaultBVSMeta "y") (some ["tainted"]) "y" 4] (some 8),
     .App "ZeroExt" [4]
       [.App "Extract" [3, 0]
         [.App "__add__" []
           [.BVS (defaultBVSMeta "x") none "x" 8, .BVV 1 8] (some 8)]
         (some 4)]
       (some 8)]
    (some 8)

mutual
/-- A native term containing an operator application whose declaration
kind has no `op_map` entry or is mapped to `None`. -/
def hasUnmappedOp : ZTerm → Bool
  | .app declKind _ args =>
    (match List.lookup declKind op_map with
     | none => true
     | some none => true
     | some (some _) => false) || hasUnmappedOpList args
  | _ => false

def hasUnmappedOpList : List ZTerm → Bool
  | [] => false
  | t :: ts => hasUnmappedOp t || hasUnmappedOpList ts
end

mutual
/-- Structural size of a native term, used as a recursion measure. -/
def ztermSize : ZTerm → Nat
  | .app _ _ args => 1 + ztermSizeList args
  | _ => 1

def ztermSizeList : List ZTerm → Nat
  | [] => 0
  | t :: ts => ztermSize t + ztermSizeList ts
end

/-! ## Theorems -/

/-- C4: a native `unknown` check result is classified by its reason
string into exactly three disjoint outcomes — an interruption reason
raises the cancellation kind (`KeyboardInterrupt`), a timeout or
resource- or memory-limit reason raises the recoverable solver-interrupt
kind, and any other reason raises the fatal internal error kind; the two
reason classes are disjoint, and an interrupted check never raises the
resource-exceeded kind. -/
theorem solver_sat_unknown_classification (r : String) :
    (r ∈ interruptionReasons →
      z3_solver_sat (.unknown r) = .keyboardInterrupt) ∧
    (r ∈ resourceReasons →
      z3_solver_sat (.unknown r) = .solverInterrupt r) ∧
    (r ∉ interruptionReasons → r ∉ resourceReasons →
      z3_solver_sat (.unknown r) = .z3Error ("solver unknown: " ++ r)) ∧
    (∀ s ∈ interruptionReasons, s ∉ resourceReasons) ∧
    (r ∈ interruptionReasons →
      ∀ s, z3_solver_sat (.unknown r) ≠ .solverInterrupt s) := by
  refine ⟨fun h1 => ?_, fun h2 => ?_, fun h1 h2 => ?_, ?_, fun h1 s => ?_⟩
  · simp [z3_solver_sat, h1]
  · have h1 : r ∉ interruptionReasons := by
      simp only [resourceReasons, List.mem_cons, List.not_mem_nil, or_false] at h2
      rcases h2 with rfl | rfl | rfl <;> decide
    simp [z3_solver_sat, h1, h2]
  · simp [z3_solver_sat, h1, h2]
  · decide
  · simp [z3_solver_sat, h1]

/-- Witness for `solver_sat_unknown_classification` at the concrete
reasons `"interrupted"`, `"timeout"` and `"smt tactic failed"`. -/
theorem solver_sat_unknown_classification_witness :
    z3_solver_sat (.unknown "interrupted") = .keyboardInterrupt ∧
    z3_solver_sat (.unknown "timeout") = .solverInterrupt "timeout" ∧
    z3_solver_sat (.unknown "smt tactic failed") =
      .z3Error "solver unknown: smt tactic failed" ∧
    ∀ s, z3_solver_sat (.unknown "interrupted") ≠ .solverInterrupt s :=
  ⟨(solver_sat_unknown_classification "interrupted").1 (by decide),
   (solver_sat_unknown_classification "timeout").2.1 (by decide),
   (solver_sat_unknown_classification "smt tactic failed").2.2.1
     (by decide) (by decide),
   (solver_sat_unknown_classification "interrupted").2.2.2.2 (by decide)⟩

/-- C5: the tracking-path insertion of `BackendZ3.add` (line 751) writes
an entry into the per-thread AST cache without incrementing the native
term's reference count — unlike the abstraction-path insertion
(lines 561-562), which increments it by exactly one — so a later
eviction (here via `downsize`) decrements a reference the cache never
acquired, leaving a net count of `-1` for the cached native term. -/
theorem ast_cache_track_insert_divergence :
    (cacheInsertTrack ⟨10000, [], []⟩ 7 42).entries = [(7, 42)] ∧
    refGet (cacheInsertTrack ⟨10000, [], []⟩ 7 42).refs 42 = 0 ∧
    (cacheInsertAbstract ⟨10000, [], []⟩ 7 42).entries = [(7, 42)] ∧
    refGet (cacheInsertAbstract ⟨10000, [], []⟩ 7 42).refs 42 = 1 ∧
    (cacheClear (cacheInsertTrack ⟨10000, [], []⟩ 7 42)).entries = [] ∧
    refGet (cacheClear (cacheInsertTrack ⟨10000, [], []⟩ 7 42)).refs 42 = -1 := by
  decide

/-- C6: abstracting a zero-argument uninterpreted bitvector constant
recovers the recorded construction args and annotations from the symbol
metadata side-table when an entry exists, and otherwise synthesizes the
minimal metadata tuple, which still preserves the symbol's name; the
sort's bit-width is preserved in both cases.  Moreover, abstracting the
lowering of a `BVS` node — whose lowering records the side-table entry —
reconstructs a node indistinguishable from the originally constructed
one. -/
theorem abstract_symbol_metadata (T : SymTable) (name : String) (w : Nat)
    (meta : BVSMeta) (an : Option (List String)) (T0 : SymTable) :
    abstractZ T (.uninterpConst name (.bvSort w)) =
      .ok (match symLookup T name with
           | some (m, a) => .BVS m a name w
           | none => .BVS (defaultBVSMeta name) none name w) ∧
    (defaultBVSMeta name).symName = name ∧
    abstractZ (tableAfter (.BVS meta an name w) T0) (conv (.BVS meta an name w)) =
      .ok (.BVS meta an name w) := by
  refine ⟨?_, rfl, ?_⟩
  · cases h : symLookup T name with
    | none => simp [abstractZ, h]
    | some p => cases p with
      | mk m a => simp [abstractZ, h]
  · simp [conv, tableAfter, abstractZ, symLookup, List.lookup]

theorem satInRange_iff (sols : List Int) (a b : Int) :
    satInRange sols a b = true ↔ ∃ v ∈ sols, a ≤ v ∧ v ≤ b := by
  simp [satInRange]

theorem containsInt_iff (sols : List Int) (v : Int) :
    sols.contains v = true ↔ v ∈ sols := by
  simp [List.contains]

/-- The binary search returns the extremum of the solution set whenever
the current interval brackets it. -/
theorem extremaSearch_eq (isMax : Bool) (sols : List Int) (lo hi m : Int)
    (hmem : m ∈ sols)
    (hopt : ∀ v ∈ sols, if isMax then v ≤ m else m ≤ v)
    (hlo : lo ≤ m) (hhi : m ≤ hi) :
    extremaSearch isMax sols lo hi = m := by
  cases isMax with
  | true =>
    have hub : ∀ v ∈ sols, v ≤ m := by
      intro v hv
      simpa using hopt v hv
    rw [extremaSearch]
    by_cases hgt : 1 < hi - lo
    · rw [if_pos hgt]
      by_cases hsat : satInRange sols ((lo + hi) / 2) hi = true
      · simp only [if_pos rfl, hsat, if_true]
        obtain ⟨v, hv, hv1, _⟩ := (satInRange_iff sols _ hi).mp hsat
        exact extremaSearch_eq true sols ((lo + hi) / 2) hi m hmem hopt
          (le_trans hv1 (hub v hv)) hhi
      · simp only [if_pos rfl, eq_false_of_ne_true hsat, Bool.false_eq_true, if_false]
        have hm2 : m ≤ (lo + hi) / 2 := by
          by_contra hc
          exact hsat ((satInRange_iff sols _ hi).mpr ⟨m, hmem, by omega, hhi⟩)
        exact extremaSearch_eq true sols lo ((lo + hi) / 2) m hmem hopt hlo hm2
    · rw [if_neg hgt]
      by_cases hc : sols.contains hi = true
      · have hle := hub hi ((containsInt_iff sols hi).mp hc)
        simp only [hc, if_true, if_pos rfl]
        omega
      · have hne : m ≠ hi := by
          intro he
          exact hc ((containsInt_iff sols hi).mpr (he ▸ hmem))
        simp only [eq_false_of_ne_true hc, if_true, Bool.false_eq_true, if_false]
        omega
  | false =>
    have hlb : ∀ v ∈ sols, m ≤ v := by
      intro v hv
      simpa using hopt v hv
    rw [extremaSearch]
    by_cases hgt : 1 < hi - lo
    · rw [if_pos hgt]
      by_cases hsat : satInRange sols lo ((lo + hi) / 2) = true
      · simp only [if_neg (by decide : ¬(false = true)), hsat, Bool.true_eq_false, if_false]
        obtain ⟨v, hv, _, hv2⟩ := (satInRange_iff sols lo _).mp hsat
        exact extremaSearch_eq false sols lo ((lo + hi) / 2) m hmem hopt hlo
          (le_trans (hlb v hv) hv2)
      · simp only [if_neg (by decide : ¬(false = true)), eq_false_of_ne_true hsat, if_pos rfl]
        have hm2 : (lo + hi) / 2 ≤ m := by
          by_contra hc
          exact hsat ((satInRange_iff sols lo _).mpr ⟨m, hmem, hlo, by omega⟩)
        exact extremaSearch_eq false sols ((lo + hi) / 2) hi m hmem hopt hm2 hhi
    · rw [if_neg hgt]
      by_cases hc : sols.contains lo = true
      · have hle := hlb lo ((containsInt_iff sols lo).mp hc)
        simp only [hc, Bool.false_eq_true, if_false, Bool.true_eq_false]
        omega
      · have hne : m ≠ lo := by
          intro he
          exact hc ((containsInt_iff sols lo).mpr (he ▸ hmem))
        simp only [eq_false_of_ne_true hc, Bool.false_eq_true, if_false, if_pos rfl, if_true]
        omega
termination_by (hi - lo).toNat
decreasing_by
  · omega
  · omega
  · omega
  · omega

theorem exists_list_max (l : List Int) (h : l ≠ []) : ∃ m ∈ l, ∀ v ∈ l, v ≤ m := by
  induction l with
  | nil => exact absurd rfl h
  | cons a as ih =>
    cases as with
    | nil =>
      refine ⟨a, List.mem_singleton_self a, ?_⟩
      intro v hv
      rw [List.mem_singleton] at hv
      omega
    | cons b bs =>
      obtain ⟨m, hm, hb⟩ := ih (List.cons_ne_nil b bs)
      rcases le_total a m with hc | hc
      · refine ⟨m, List.mem_cons_of_mem a hm, ?_⟩
        intro v hv
        rcases List.mem_cons.mp hv with rfl | hv
        · exact hc
        · exact hb v hv
      · refine ⟨a, List.mem_cons_self a (b :: bs), ?_⟩
        intro v hv
        rcases List.mem_cons.mp hv with rfl | hv
        · exact le_refl v
        · exact le_trans (hb v hv) hc

theorem exists_list_min (l : List Int) (h : l ≠ []) : ∃ m ∈ l, ∀ v ∈ l, m ≤ v := by
  induction l with
  | nil => exact absurd rfl h
  | cons a as ih =>
    cases as with
    | nil =>
      refine ⟨a, List.mem_singleton_self a, ?_⟩
      intro v hv
      rw [List.mem_singleton] at hv
      omega
    | cons b bs =>
      obtain ⟨m, hm, hb⟩ := ih (List.cons_ne_nil b bs)
      rcases le_total a m with hc | hc
      · refine ⟨a, List.mem_cons_self a (b :: bs), ?_⟩
        intro v hv
        rcases List.mem_cons.mp hv with rfl | hv
        · exact le_refl v
        · exact le_trans hc (hb v hv)
      · refine ⟨m, List.mem_cons_of_mem a hm, ?_⟩
        intro v hv
        rcases List.mem_cons.mp hv with rfl | hv
        · exact hc
        · exact hb v hv

/-- C2: whenever the extra constraints are satisfiable (the solution set
is nonempty) and every solution value lies in the searched domain
(`[0, 2^w - 1]` unsigned, `[-2^(w-1), 2^(w-1) - 1]` signed), `_extrema`
with `is_max` returns a value `v` such that `expr == v` is satisfiable
and no strictly greater value is satisfiable — dually, with `is_max`
false, no strictly smaller value is satisfiable. -/
theorem extrema_returns_extremum (isMax signed : Bool) (w : Nat) (sols : List Int)
    (hne : sols ≠ [])
    (hdom : ∀ v ∈ sols,
      (if signed then -((2 : Int) ^ (w - 1)) else 0) ≤ v ∧
      v ≤ (if signed then (2 : Int) ^ (w - 1) - 1 else 2 ^ w - 1)) :
    extrema isMax signed w sols ∈ sols ∧
    ∀ v ∈ sols, if isMax then v ≤ extrema isMax signed w sols
      else extrema isMax signed w sols ≤ v := by
  cases isMax with
  | true =>
    obtain ⟨m, hm, hb⟩ := exists_list_max sols hne
    have he : extrema true signed w sols = m := by
      unfold extrema
      exact extremaSearch_eq true sols _ _ m hm
        (by intro v hv; simpa using hb v hv) (hdom m hm).1 (hdom m hm).2
    rw [he]
    refine ⟨hm, ?_⟩
    intro v hv
    simpa using hb v hv
  | false =>
    obtain ⟨m, hm, hb⟩ := exists_list_min sols hne
    have he : extrema false signed w sols = m := by
      unfold extrema
      exact extremaSearch_eq false sols _ _ m hm
        (by intro v hv; simpa using hb v hv) (hdom m hm).1 (hdom m hm).2
    rw [he]
    refine ⟨hm, ?_⟩
    intro v hv
    simpa using hb v hv

/-- Witness for `extrema_returns_extremum`: the 8-bit unsigned solution
set `{11, 50, 199}` has maximum 199. -/
theorem extrema_returns_extremum_witness :
    (([11, 50, 199] : List Int) ≠ [] ∧
      ∀ v ∈ ([11, 50, 199] : List Int),
        (if (false : Bool) then -((2 : Int) ^ (8 - 1)) else 0) ≤ v ∧
        v ≤ (if (false : Bool) then (2 : Int) ^ (8 - 1) - 1 else 2 ^ 8 - 1)) ∧
    extrema true false 8 [11, 50, 199] ∈ ([11, 50, 199] : List Int) ∧
    ∀ v ∈ ([11, 50, 199] : List Int),
      if (true : Bool) then v ≤ extrema true false 8 [11, 50, 199]
      else extrema true false 8 [11, 50, 199] ≤ v :=
  ⟨⟨by decide, by decide⟩,
   extrema_returns_extremum true false 8 [11, 50, 199] (by decide) (by decide)⟩

/-- On an empty solution set every check is unsatisfiable, so the search
collapses onto the starting boundary opposite to the search direction. -/
theorem extremaSearch_nil (isMax : Bool) (lo hi : Int) :
    extremaSearch isMax [] lo hi = if isMax then lo else hi := by
  cases isMax with
  | true =>
    rw [extremaSearch]
    by_cases hgt : 1 < hi - lo
    · rw [if_pos hgt]
      simp only [if_pos rfl, satInRange, List.any_nil, Bool.false_eq_true, if_false]
      simpa using extremaSearch_nil true lo ((lo + hi) / 2)
    · rw [if_neg hgt]
      simp [satInRange]
  | false =>
    rw [extremaSearch]
    by_cases hgt : 1 < hi - lo
    · rw [if_pos hgt]
      simp only [if_neg (by decide : ¬(false = true)), satInRange, List.any_nil, if_pos rfl]
      simpa using extremaSearch_nil false ((lo + hi) / 2) hi
    · rw [if_neg hgt]
      simp [satInRange]
termination_by (hi - lo).toNat
decreasing_by
  · omega
  · omega

/-- C9: on an unsatisfiable query (empty solution set) `_extrema` raises
no error and returns the domain boundary opposite to the search
direction: the domain's lower bound when maximising and its upper bound
when minimising, exactly as it would for a feasible query whose extremum
is that boundary. -/
theorem extrema_unsat_returns_opposite_bound (isMax signed : Bool) (w : Nat) :
    extrema isMax signed w [] =
      if isMax then (if signed then -((2 : Int) ^ (w - 1)) else 0)
      else (if signed then (2 : Int) ^ (w - 1) - 1 else 2 ^ w - 1) := by
  unfold extrema
  cases isMax <;> simp [extremaSearch_nil]

theorem blockedTuples_scopeAdd (st : ScopeStack) (r : Assignment) :
    blockedTuples (scopeAdd st r) = r :: blockedTuples st := by
  cases st <;> simp [scopeAdd, blockedTuples]

theorem feasible_scopePush (sols : List Assignment) (st : ScopeStack) :
    feasible sols (scopePush st) = feasible sols st := by
  simp [feasible, scopePush, blockedTuples]

theorem feasible_scopeAdd (sols : List Assignment) (st : ScopeStack) (r : Assignment) :
    feasible sols (scopeAdd st r) =
      (feasible sols st).filter fun t => !(t == r) := by
  unfold feasible
  rw [List.filter_filter]
  congr 1
  funext t
  rw [blockedTuples_scopeAdd, List.contains_cons, Bool.not_or]

theorem length_filter_ne_of_nodup (l : List Assignment) (r : Assignment)
    (hnd : l.Nodup) (hr : r ∈ l) :
    (l.filter fun t => !(t == r)).length = l.length - 1 := by
  induction l with
  | nil => cases hr
  | cons a as ih =>
    rw [List.nodup_cons] at hnd
    rcases List.mem_cons.mp hr with rfl | hr2
    · have : as.filter (fun t => !(t == r)) = as := by
        rw [List.filter_eq_self]
        intro t ht
        have : t ≠ r := fun he => hnd.1 (he ▸ ht)
        simpa using this
      simp [List.filter_cons, this]
    · have hne : ¬(a == r) = true := by
        have : a ≠ r := fun he => hnd.1 (he ▸ hr2)
        simpa using this
      have hlen : 1 ≤ as.length := List.length_pos.mpr (List.ne_nil_of_mem hr2)
      have hih := ih hnd.2 hr2
      have hne2 : (a == r) = false := by
        rw [Bool.eq_false_iff]
        exact hne
      rw [List.filter_cons, hne2]
      rw [if_pos (show (!false) = true from rfl)]
      simp only [List.length_cons, hih]
      omega

theorem batchEvalLoop_succ_none (pick : List Assignment → Option Assignment)
    (sols : List Assignment) (rem : Nat) (st : ScopeStack) (acc : List Assignment)
    (hp : pick (feasible sols st) = none) :
    batchEvalLoop pick sols (rem + 1) st acc = ⟨acc, st, 1, 0⟩ := by
  simp [batchEvalLoop, hp]

theorem batchEvalLoop_succ_some (pick : List Assignment → Option Assignment)
    (sols : List Assignment) (rem : Nat) (st : ScopeStack) (acc : List Assignment)
    (r : Assignment) (hp : pick (feasible sols st) = some r) :
    batchEvalLoop pick sols (rem + 1) st acc =
      ⟨(batchEvalLoop pick sols rem (if rem = 0 then st else scopeAdd st r) (acc ++ [r])).results,
       (batchEvalLoop pick sols rem (if rem = 0 then st else scopeAdd st r) (acc ++ [r])).state,
       (batchEvalLoop pick sols rem (if rem = 0 then st else scopeAdd st r) (acc ++ [r])).checks + 1,
       (batchEvalLoop pick sols rem (if rem = 0 then st else scopeAdd st r) (acc ++ [r])).adds +
         (if rem = 0 then 0 else 1)⟩ := by
  simp [batchEvalLoop, hp]

/-- Invariant of the `_batch_eval` loop: with `rem` iterations left the
loop appends `min rem k` pairwise-distinct still-feasible tuples
(`k` feasible tuples remaining), makes `min rem k` checks plus one extra
unsat-discovering check when `k < rem`, and adds one blocking constraint
per found tuple except at the final requested iteration. -/
theorem batchEvalLoop_spec (pick : List Assignment → Option Assignment)
    (Hsome : ∀ l x, pick l = some x → x ∈ l)
    (Hnone : ∀ l, pick l = none → l = [])
    (sols : List Assignment) (hnd : sols.Nodup) :
    ∀ (rem : Nat) (st : ScopeStack) (acc : List Assignment),
      ∃ news,
        (batchEvalLoop pick sols rem st acc).results = acc ++ news ∧
        news.Nodup ∧
        (∀ t ∈ news, t ∈ feasible sols st) ∧
        news.length = min rem (feasible sols st).length ∧
        (batchEvalLoop pick sols rem st acc).checks =
          (if (feasible sols st).length < rem
           then (feasible sols st).length + 1 else rem) ∧
        (batchEvalLoop pick sols rem st acc).adds =
          (if rem ≤ (feasible sols st).length
           then rem - 1 else (feasible sols st).length) := by
  intro rem
  induction rem with
  | zero =>
    intro st acc
    exact ⟨[], by simp [batchEvalLoop], by simp, by simp, by simp,
      by simp [batchEvalLoop], by simp [batchEvalLoop]⟩
  | succ rm ih =>
    intro st acc
    cases hp : pick (feasible sols st) with
    | none =>
      have hfe : feasible sols st = [] := Hnone _ hp
      rw [batchEvalLoop_succ_none pick sols rm st acc hp]
      exact ⟨[], by simp, by simp, by simp, by simp [hfe],
        by simp [hfe], by simp [hfe]⟩
    | some r =>
      have hr : r ∈ feasible sols st := Hsome _ _ hp
      have hlen1 : 1 ≤ (feasible sols st).length :=
        List.length_pos.mpr (List.ne_nil_of_mem hr)
      rw [batchEvalLoop_succ_some pick sols rm st acc r hp]
      cases rm with
      | zero =>
        refine ⟨[r], by simp [batchEvalLoop], by simp, by simpa using hr, ?_, ?_, ?_⟩
        · simp only [List.length_singleton]
          omega
        · rw [if_neg (by omega : ¬((feasible sols st).length < 0 + 1))]
          rfl
        · rw [if_pos (by omega : 0 + 1 ≤ (feasible sols st).length)]
          rfl
      | succ rm2 =>
        have hne0 : ¬(rm2 + 1 = 0) := Nat.succ_ne_zero rm2
        have hndf : (feasible sols st).Nodup := List.Nodup.filter _ hnd
        have hflen : (feasible sols (scopeAdd st r)).length =
            (feasible sols st).length - 1 := by
          rw [feasible_scopeAdd]
          exact length_filter_ne_of_nodup _ _ hndf hr
        obtain ⟨news, h1, h2, h3, h4, h5, h6⟩ := ih (scopeAdd st r) (acc ++ [r])
        have hmemf : ∀ t ∈ news, t ∈ feasible sols st ∧ t ≠ r := by
          intro t ht
          have := h3 t ht
          rw [feasible_scopeAdd] at this
          have h' := List.mem_filter.mp this
          refine ⟨h'.1, ?_⟩
          simpa using h'.2
        refine ⟨r :: news, ?_, ?_, ?_, ?_, ?_, ?_⟩
        · simp only [if_neg hne0, h1, List.append_assoc, List.singleton_append]
        · exact List.Nodup.cons (fun hmem => (hmemf r hmem).2 rfl) h2
        · intro t ht
          rcases List.mem_cons.mp ht with rfl | ht2
          · exact hr
          · exact (hmemf t ht2).1
        · rw [feasible_scopeAdd] at h4
          rw [length_filter_ne_of_nodup _ _ hndf hr] at h4
          simp only [List.length_cons, h4]
          omega
        · simp only [if_neg hne0]
          rw [hflen] at h5
          rw [h5]
          by_cases hc : (feasible sols st).length < rm2 + 2
          · rw [if_pos (by omega), if_pos hc]
            omega
          · rw [if_neg (by omega), if_neg hc]
        · simp only [if_neg hne0]
          rw [hflen] at h6
          rw [h6]
          by_cases hc : rm2 + 2 ≤ (feasible sols st).length
          · rw [if_pos (by omega), if_pos hc]
            omega
          · rw [if_neg (by omega), if_neg hc]
            omega

/-- C3 (amended): over a solution space with `k` distinct satisfying
joint assignments, `_batch_eval(exprs, n, ...)` returns `min(n, k)`
pairwise-distinct satisfying tuples; it makes `min(n, k)` native check
calls when `k >= n` and `k + 1` when `k < n` (the final check discovers
exhaustion); it adds a blocking constraint after each found solution
except at the final requested iteration (`n - 1` constraints when the
space is not exhausted, `k` otherwise); and it performs exactly one
scope push/pop pair when `n > 1` and none when `n <= 1`. -/
theorem batch_eval_enumeration (pick : List Assignment → Option Assignment)
    (sols : List Assignment) (n : Nat) (st : ScopeStack)
    (Hsome : ∀ l x, pick l = some x → x ∈ l)
    (Hnone : ∀ l, pick l = none → l = [])
    (hnd : sols.Nodup) :
    (batchEval pick sols n st).results.length = min n (feasible sols st).length ∧
    (batchEval pick sols n st).results.Nodup ∧
    (∀ t ∈ (batchEval pick sols n st).results, t ∈ feasible sols st) ∧
    (batchEval pick sols n st).checks =
      (if (feasible sols st).length < n
       then (feasible sols st).length + 1 else n) ∧
    (batchEval pick sols n st).adds =
      (if n ≤ (feasible sols st).length then n - 1 else (feasible sols st).length) ∧
    (batchEval pick sols n st).pushes = (if 1 < n then 1 else 0) ∧
    (batchEval pick sols n st).pops = (if 1 < n then 1 else 0) := by
  obtain ⟨news, h1, h2, h3, h4, h5, h6⟩ :=
    batchEvalLoop_spec pick Hsome Hnone sols hnd n
      (if 1 < n then scopePush st else st) []
  have hfe : feasible sols (if 1 < n then scopePush st else st) = feasible sols st := by
    by_cases hn : 1 < n
    · rw [if_pos hn, feasible_scopePush]
    · rw [if_neg hn]
  rw [hfe] at h3 h4 h5 h6
  rw [List.nil_append] at h1
  have hres : (batchEval pick sols n st).results =
      (batchEvalLoop pick sols n (if 1 < n then scopePush st else st) []).results := rfl
  have hchk : (batchEval pick sols n st).checks =
      (batchEvalLoop pick sols n (if 1 < n then scopePush st else st) []).checks := rfl
  have hadds : (batchEval pick sols n st).adds =
      (batchEvalLoop pick sols n (if 1 < n then scopePush st else st) []).adds := rfl
  rw [hres, h1]
  refine ⟨h4, h2, h3, ?_, ?_, rfl, rfl⟩
  · rw [hchk, h5]
  · rw [hadds, h6]

/-- C3 counterexample: with an empty solution space (`k = 0`) and
`n = 2`, `_batch_eval` makes one native check call, not
`min(n, k) = 0`; and with `n = 1` it performs no scope push/pop pair at
all, not exactly one. -/
theorem batch_eval_check_count_cex :
    (batchEval List.head? ([] : List Assignment) 2 [[]]).checks ≠
      min 2 (feasible ([] : List Assignment) [[]]).length ∧
    (batchEval List.head? [[7]] 1 [[]]).pushes = 0 := by
  constructor
  · decide
  · decide

theorem head?_mem_of_eq_some (l : List Assignment) (x : Assignment)
    (h : l.head? = some x) : x ∈ l := by
  cases l with
  | nil => cases h
  | cons a as =>
    simp only [List.head?_cons, Option.some.injEq] at h
    exact h ▸ List.mem_cons_self a as

theorem eq_nil_of_head?_eq_none (l : List Assignment) (h : l.head? = none) :
    l = [] := by
  cases l with
  | nil => rfl
  | cons a as => cases h

/-- Witness for `batch_eval_enumeration` at the two-element solution
space `{(3), (5)}` with `n = 2`. -/
theorem batch_eval_enumeration_witness :
    (batchEval List.head? [[3], [5]] 2 [[]]).results.length =
      min 2 (feasible [[3], [5]] [[]]).length ∧
    (batchEval List.head? [[3], [5]] 2 [[]]).results.Nodup ∧
    (∀ t ∈ (batchEval List.head? [[3], [5]] 2 [[]]).results,
      t ∈ feasible [[3], [5]] [[]]) ∧
    (batchEval List.head? [[3], [5]] 2 [[]]).checks =
      (if (feasible [[3], [5]] [[]]).length < 2
       then (feasible [[3], [5]] [[]]).length + 1 else 2) ∧
    (batchEval List.head? [[3], [5]] 2 [[]]).adds =
      (if 2 ≤ (feasible [[3], [5]] [[]]).length
       then 2 - 1 else (feasible [[3], [5]] [[]]).length) ∧
    (batchEval List.head? [[3], [5]] 2 [[]]).pushes = (if 1 < 2 then 1 else 0) ∧
    (batchEval List.head? [[3], [5]] 2 [[]]).pops = (if 1 < 2 then 1 else 0) :=
  batch_eval_enumeration List.head? [[3], [5]] 2 [[]]
    (fun l x h => head?_mem_of_eq_some l x h)
    (fun l h => eq_nil_of_head?_eq_none l h)
    (by decide)

theorem batchEvalLoop_state_head (pick : List Assignment → Option Assignment)
    (sols : List Assignment) :
    ∀ (rem : Nat) (g : List Assignment) (st : ScopeStack) (acc : List Assignment),
      ∃ f, (batchEvalLoop pick sols rem (g :: st) acc).state = f :: st := by
  intro rem
  induction rem with
  | zero =>
    intro g st acc
    exact ⟨g, rfl⟩
  | succ rm ih =>
    intro g st acc
    cases hp : pick (feasible sols (g :: st)) with
    | none =>
      rw [batchEvalLoop_succ_none pick sols rm (g :: st) acc hp]
      exact ⟨g, rfl⟩
    | some r =>
      rw [batchEvalLoop_succ_some pick sols rm (g :: st) acc r hp]
      have hshape : (if rm = 0 then (g :: st) else scopeAdd (g :: st) r) =
          (if rm = 0 then g else r :: g) :: st := by
        by_cases hc : rm = 0
        · rw [if_pos hc, if_pos hc]
        · rw [if_neg hc, if_neg hc]
          rfl
      rw [hshape]
      exact ih (if rm = 0 then g else r :: g) st (acc ++ [r])

theorem batchEvalLoop_le_one (pick : List Assignment → Option Assignment)
    (sols : List Assignment) (rem : Nat) (hrem : rem ≤ 1)
    (st : ScopeStack) (acc : List Assignment) :
    (batchEvalLoop pick sols rem st acc).state = st ∧
    (batchEvalLoop pick sols rem st acc).adds = 0 := by
  cases rem with
  | zero => exact ⟨rfl, rfl⟩
  | succ rm =>
    have hrm : rm = 0 := by omega
    subst hrm
    cases hp : pick (feasible sols st) with
    | none =>
      rw [batchEvalLoop_succ_none pick sols 0 st acc hp]
      exact ⟨rfl, rfl⟩
    | some r =>
      rw [batchEvalLoop_succ_some pick sols 0 st acc r hp]
      exact ⟨rfl, rfl⟩

/-- C10: when `n > 1` the scoped push/pop pair restores the solver's
assertion set and push/pop depth exactly; when `n <= 1` the call performs
no push, no pop, and adds no blocking constraint, leaving the solver
state untouched. -/
theorem batch_eval_frame_effect (pick : List Assignment → Option Assignment)
    (sols : List Assignment) (n : Nat) (st : ScopeStack) :
    (1 < n → (batchEval pick sols n st).state = st) ∧
    (n ≤ 1 → (batchEval pick sols n st).state = st ∧
      (batchEval pick sols n st).pushes = 0 ∧
      (batchEval pick sols n st).pops = 0 ∧
      (batchEval pick sols n st).adds = 0) := by
  constructor
  · intro hn
    obtain ⟨f, hf⟩ := batchEvalLoop_state_head pick sols n [] st []
    have hst : (batchEval pick sols n st).state =
        scopePop (batchEvalLoop pick sols n (scopePush st) []).state := by
      unfold batchEval
      simp only [if_pos hn]
    rw [hst, scopePush] at *
    rw [hf]
    rfl
  · intro hn
    have hn' : ¬(1 < n) := by omega
    obtain ⟨h1, h2⟩ := batchEvalLoop_le_one pick sols n hn st []
    have hst : (batchEval pick sols n st).state =
        (batchEvalLoop pick sols n st []).state := by
      unfold batchEval
      simp only [if_neg hn']
    have hadds : (batchEval pick sols n st).adds =
        (batchEvalLoop pick sols n st []).adds := by
      unfold batchEval
      simp only [if_neg hn']
    have hpu : (batchEval pick sols n st).pushes = 0 := by
      unfold batchEval
      simp only [if_neg hn']
    have hpo : (batchEval pick sols n st).pops = 0 := by
      unfold batchEval
      simp only [if_neg hn']
    exact ⟨hst ▸ h1, hpu, hpo, hadds ▸ h2⟩

/-- Witness for `batch_eval_frame_effect` at `n = 2` and `n = 1`. -/
theorem batch_eval_frame_effect_witness :
    (batchEval List.head? [[1]] 2 [[]]).state = [[]] ∧
    ((batchEval List.head? [[1]] 1 [[]]).state = [[]] ∧
      (batchEval List.head? [[1]] 1 [[]]).pushes = 0 ∧
      (batchEval List.head? [[1]] 1 [[]]).pops = 0 ∧
      (batchEval List.head? [[1]] 1 [[]]).adds = 0) :=
  ⟨(batch_eval_frame_effect List.head? [[1]] 2 [[]]).1 (by omega),
   (batch_eval_frame_effect List.head? [[1]] 1 [[]]).2 (by omega)⟩

theorem goodList_iff (l : List Node) : goodList l = true ↔ ∀ a ∈ l, good a = true := by
  induction l with
  | nil => simp [goodList]
  | cons a as ih => simp [goodList, Bool.and_eq_true, ih, List.forall_mem_cons]

theorem stableList_iff (l : List Node) : stableList l = true ↔ ∀ a ∈ l, stable a = true := by
  induction l with
  | nil => simp [stableList]
  | cons a as ih => simp [stableList, Bool.and_eq_true, ih, List.forall_mem_cons]

theorem nodeSize_le_of_mem (a : Node) (l : List Node) (h : a ∈ l) :
    nodeSize a ≤ nodeSizeList l := by
  induction l with
  | nil => cases h
  | cons b bs ih =>
    rcases List.mem_cons.mp h with rfl | h2
    · rw [nodeSizeList]
      omega
    · have := ih h2
      rw [nodeSizeList]
      omega

theorem mem_bvsLeavesList (l : List Node) (a : Node) (ha : a ∈ l)
    (x : String × BVSMeta × Option (List String) × Nat) (hx : x ∈ bvsLeaves a) :
    x ∈ bvsLeavesList l := by
  induction l with
  | nil => cases ha
  | cons b bs ih =>
    rw [bvsLeavesList, List.mem_append]
    rcases List.mem_cons.mp ha with rfl | h2
    · exact Or.inl hx
    · exact Or.inr (ih h2)

theorem abstractZList_ok_of_each (T : SymTable) (l : List Node)
    (h : ∀ a ∈ l, abstractZ T (conv a) = .ok a) :
    abstractZList T (convList l) = .ok l := by
  induction l with
  | nil => rfl
  | cons a as ih =>
    rw [convList, abstractZList, h a (List.mem_cons_self a as),
      ih fun b hb => h b (List.mem_cons_of_mem a hb)]

mutual
/-- C7 core: abstraction of a native term containing an operator whose
declaration kind has no mapped IR operation tag fails with an
abstraction error; the error propagates from subterms. -/
theorem abstractZ_err_of_unmapped (T : SymTable) (t : ZTerm)
    (h : hasUnmappedOp t = true) : ∃ e, abstractZ T t = .error e := by
  cases t with
  | ztrue => cases h
  | zfalse => cases h
  | bvnum v w => cases h
  | uninterpConst name s => cases h
  | app declKind params args =>
    cases hm : List.lookup declKind op_map with
    | none => exact ⟨.unknownDeclKind declKind, by rw [abstractZ, hm]⟩
    | some o =>
      cases o with
      | none => exact ⟨.unknownDeclOp declKind, by rw [abstractZ, hm]⟩
      | some opName =>
        rw [hasUnmappedOp, hm] at h
        simp only [Bool.false_or] at h
        obtain ⟨e, he⟩ := abstractZList_err_of_unmapped T args h
        exact ⟨e, by rw [abstractZ, hm, he]⟩

theorem abstractZList_err_of_unmapped (T : SymTable) (l : List ZTerm)
    (h : hasUnmappedOpList l = true) : ∃ e, abstractZList T l = .error e := by
  cases l with
  | nil => cases h
  | cons t ts =>
    rw [hasUnmappedOpList] at h
    rcases Bool.or_eq_true _ _ |>.mp h with h1 | h2
    · obtain ⟨e, he⟩ := abstractZ_err_of_unmapped T t h1
      exact ⟨e, by rw [abstractZList, he]⟩
    · cases ha : abstractZ T t with
      | error e1 => exact ⟨e1, by rw [abstractZList, ha]⟩
      | ok n =>
        obtain ⟨e, he⟩ := abstractZList_err_of_unmapped T ts h2
        exact ⟨e, by rw [abstractZList, ha, he]⟩
end

/-- C7: a native term whose operator code has no mapped IR operation tag
(or whose declaration kind is unknown) makes abstraction fail with a
fatal abstraction error that propagates to the caller; it is never
coerced into a result node. -/
theorem abstract_unknown_op_fatal (T : SymTable) (t : ZTerm)
    (h : hasUnmappedOp t = true) : ∃ e, abstractZ T t = .error e :=
  abstractZ_err_of_unmapped T t h

/-- Witness for `abstract_unknown_op_fatal`: `Z3_OP_BNAND` is mapped to
`None` in `op_map`, and an unmapped operator nested beneath a mapped one
propagates. -/
theorem abstract_unknown_op_fatal_witness :
    (∃ e, abstractZ [] (.app "Z3_OP_BNAND" [] []) = .error e) ∧
    (∃ e, abstractZ [] (.app "Z3_OP_AND" [] [.app "Z3_OP_SELECT" [] []]) = .error e) :=
  ⟨abstract_unknown_op_fatal [] (.app "Z3_OP_BNAND" [] []) (by decide),
   abstract_unknown_op_fatal [] (.app "Z3_OP_AND" [] [.app "Z3_OP_SELECT" [] []])
     (by decide)⟩

mutual
/-- Looking up a name in the side-table after lowering `n` returns the
metadata of the last-lowered symbol leaf with that name, or falls back to
the pre-existing table. -/
theorem symLookup_tableAfter (n : Node) (T : SymTable) (name : String) :
    symLookup (tableAfter n T) name =
      (match (bvsLeaves n).reverse.find? (fun l => l.1 == name) with
       | some l => some (l.2.1, l.2.2.1)
       | none => symLookup T name) := by
  cases n with
  | BoolV b => rfl
  | BoolS nm => rfl
  | BVV v w => rfl
  | BVS meta an nm w =>
    rw [tableAfter, bvsLeaves]
    by_cases h : nm = name
    · subst h
      simp [symLookup, List.lookup_cons, List.find?]
    · have h1 : (name == nm) = false := by
        simp only [beq_eq_decide]
        simpa using fun he => h he.symm
      have h2 : (nm == name) = false := by
        simp only [beq_eq_decide]
        simpa using h
      simp [symLookup, List.lookup_cons, List.find?, h1, h2]
  | App op params args len =>
    rw [tableAfter, bvsLeaves]
    exact symLookup_tableAfterList args T name

theorem symLookup_tableAfterList (l : List Node) (T : SymTable) (name : String) :
    symLookup (tableAfterList l T) name =
      (match (bvsLeavesList l).reverse.find? (fun x => x.1 == name) with
       | some x => some (x.2.1, x.2.2.1)
       | none => symLookup T name) := by
  cases l with
  | nil => rfl
  | cons a as =>
    rw [tableAfterList, bvsLeavesList, List.reverse_append, List.find?_append]
    rw [symLookup_tableAfterList as (tableAfter a T) name]
    cases hf : (bvsLeavesList as).reverse.find? (fun x => x.1 == name) with
    | some x => simp [Option.or]
    | none =>
      simp only [Option.or]
      exact symLookup_tableAfter a T name
end

/-- With consistent symbol naming, the table built by lowering resolves
every symbol leaf of `n` to that leaf's own metadata. -/
theorem tableAfter_lookup_of_consistent (n : Node) (hc : symsConsistent n = true)
    (x : String × BVSMeta × Option (List String) × Nat) (hx : x ∈ bvsLeaves n) :
    symLookup (tableAfter n []) x.1 = some (x.2.1, x.2.2.1) := by
  have hmain := symLookup_tableAfter n [] x.1
  cases hf : (bvsLeaves n).reverse.find? (fun l => l.1 == x.1) with
  | none =>
    exfalso
    have := List.find?_eq_none.mp hf x (List.mem_reverse.mpr hx)
    simp at this
  | some y =>
    have hy1 : y ∈ bvsLeaves n := List.mem_reverse.mp (List.mem_of_find?_eq_some hf)
    have hy2 : y.1 = x.1 := by
      have := List.find?_some hf
      simpa using this
    have hcons : ∀ l1 ∈ bvsLeaves n, ∀ l2 ∈ bvsLeaves n, l1.1 = l2.1 → l1 = l2 := by
      intro l1 h1 l2 h2
      have halt := List.all_eq_true.mp hc l1 h1
      have := List.all_eq_true.mp halt l2 h2
      rw [decide_eq_true_eq] at this
      exact this
    have hyx : y = x := hcons y hy1 x hx hy2
    rw [hmain, hf, hyx]

theorem nodeSize_pos (n : Node) : 1 ≤ nodeSize n := by
  cases n <;> simp [nodeSize]

set_option maxHeartbeats 2000000 in
/-- C1 core, by induction on the node size: each constructible, tag- and
arity-stable node round-trips through lowering and abstraction whenever
the side-table resolves each of its symbol leaves to that leaf's
metadata. -/
theorem abstractZ_conv_eq_fuel (N : Nat) :
    ∀ (T : SymTable) (n : Node), nodeSize n ≤ N → good n = true →
      stable n = true →
      (∀ x ∈ bvsLeaves n, symLookup T x.1 = some (x.2.1, x.2.2.1)) →
      abstractZ T (conv n) = .ok n := by
  induction N with
  | zero =>
    intro T n hN _ _ _
    have := nodeSize_pos n
    omega
  | succ N ih =>
    intro T n hN hg hs hT
    cases n with
  | BoolV b => cases b <;> rfl
  | BoolS name => rfl
  | BVV v w =>
    have hlt : v < 2 ^ w := by simpa [good] using hg
    simp [conv, abstractZ, Nat.mod_eq_of_lt hlt]
  | BVS meta an name w =>
    have hl := hT (name, meta, an, w)
      (by rw [bvsLeaves]; exact List.mem_singleton_self _)
    simp [conv, abstractZ, hl]
  | App op params args len =>
    rw [good, Bool.and_eq_true] at hg
    obtain ⟨hgl, hgs⟩ := hg
    rw [stable, Bool.and_eq_true, Bool.and_eq_true] at hs
    obtain ⟨⟨hsl, hs1⟩, hs2⟩ := hs
    rw [nodeSize] at hN
    have hrec : ∀ a ∈ args, abstractZ T (conv a) = .ok a := by
      intro a ha
      have hsize : nodeSize a ≤ N := by
        have := nodeSize_le_of_mem a args ha
        omega
      exact ih T a hsize ((goodList_iff args).mp hgl a ha)
        ((stableList_iff args).mp hsl a ha)
        (fun x hx => hT x (by rw [bvsLeaves]; exact mem_bvsLeavesList args a ha x hx))
    have hok := abstractZList_ok_of_each T args hrec
    by_cases hAndOr : op = "And" ∨ op = "Or"
    · rw [goodShape, if_pos hAndOr, Bool.and_eq_true, Bool.and_eq_true,
        Bool.and_eq_true] at hgs
      obtain ⟨⟨⟨hp, -⟩, -⟩, hlen⟩ := hgs
      have hp2 : params = [] := by simpa using hp
      have hlen2 : len = none := by simpa using hlen
      subst hp2
      subst hlen2
      rcases hAndOr with rfl | rfl
      · simp [conv, abstractZ, hok, buildNode, opCalcLength,
          show List.lookup "Z3_OP_AND" op_map = some (some "And") from rfl]
      · simp [conv, abstractZ, hok, buildNode, opCalcLength,
          show List.lookup "Z3_OP_OR" op_map = some (some "Or") from rfl]
    by_cases hNot : op = "Not"
    · subst hNot
      rw [goodShape, if_neg hAndOr, if_pos rfl, Bool.and_eq_true,
        Bool.and_eq_true] at hgs
      obtain ⟨⟨hp, hshape⟩, hlen⟩ := hgs
      have hp2 : params = [] := by simpa using hp
      have hlen2 : len = none := by simpa using hlen
      subst hp2
      subst hlen2
      cases args with
      | nil => simp [unaryBoolArm] at hshape
      | cons a args1 =>
        cases args1 with
        | cons b args2 => simp [unaryBoolArm] at hshape
        | nil =>
          simp [conv, abstractZ, hok, buildNode, opCalcLength,
            show List.lookup "Z3_OP_NOT" op_map = some (some "Not") from rfl]
    by_cases hCmp : op = "__eq__" ∨ op = "UGE" ∨ op = "UGT" ∨ op = "ULE"
        ∨ op = "ULT" ∨ op = "__ge__" ∨ op = "__gt__" ∨ op = "__le__" ∨ op = "__lt__"
    · rw [goodShape, if_neg hAndOr, if_neg hNot, if_pos hCmp, Bool.and_eq_true,
        Bool.and_eq_true] at hgs
      obtain ⟨⟨hp, hshape⟩, hlen⟩ := hgs
      have hp2 : params = [] := by simpa using hp
      have hlen2 : len = none := by simpa using hlen
      subst hp2
      subst hlen2
      cases args with
      | nil => simp [binaryCmpArm] at hshape
      | cons a args1 =>
        cases args1 with
        | nil => simp [binaryCmpArm] at hshape
        | cons b args2 =>
          cases args2 with
          | cons c args3 => simp [binaryCmpArm] at hshape
          | nil =>
            rcases hCmp with rfl | rfl | rfl | rfl | rfl | rfl | rfl | rfl | rfl
            · simp [conv, abstractZ, hok, buildNode, opCalcLength,
                show List.lookup "Z3_OP_EQ" op_map = some (some "__eq__") from rfl]
            · simp [conv, abstractZ, hok, buildNode, opCalcLength,
                show List.lookup "Z3_OP_UGEQ" op_map = some (some "UGE") from rfl]
            · simp [conv, abstractZ, hok, buildNode, opCalcLength,
                show List.lookup "Z3_OP_UGT" op_map = some (some "UGT") from rfl]
            · simp [conv, abstractZ, hok, buildNode, opCalcLength,
                show List.lookup "Z3_OP_ULEQ" op_map = some (some "ULE") from rfl]
            · simp [conv, abstractZ, hok, buildNode, opCalcLength,
                show List.lookup "Z3_OP_ULT" op_map = some (some "ULT") from rfl]
            · exact absurd hs1 (by decide)
            · exact absurd hs1 (by decide)
            · exact absurd hs1 (by decide)
            · exact absurd hs1 (by decide)
    by_cases hAdd : op = "__add__"
    · subst hAdd
      have hlen2 : args.length = 2 := by simpa using hs2
      rw [goodShape, if_neg hAndOr, if_neg hNot, if_neg hCmp, if_pos rfl,
        Bool.and_eq_true] at hgs
      obtain ⟨hp, hshape⟩ := hgs
      have hp2 : params = [] := by simpa using hp
      subst hp2
      cases args with
      | nil => simp at hlen2
      | cons a rest =>
        cases rest with
        | nil => simp at hlen2
        | cons b rest2 =>
          cases rest2 with
          | cons c rest3 => simp at hlen2
          | nil =>
            simp only [addArm, Bool.and_eq_true] at hshape
            have hlen : len = nodeLen a := by
              simpa using hshape.2
            subst hlen
            have ha := hrec a (List.mem_cons_self a [b])
            have hb := hrec b (List.mem_cons_of_mem a (List.mem_singleton_self b))
            simp [conv, convList, foldBin, abstractZ, abstractZList, ha, hb,
              buildNode, opCalcLength,
              show List.lookup "Z3_OP_BADD" op_map = some (some "__add__") from rfl]
    by_cases hConcat : op = "Concat"
    · subst hConcat
      have hlen2 : args.length = 2 := by simpa using hs2
      rw [goodShape, if_neg hAndOr, if_neg hNot, if_neg hCmp, if_neg hAdd,
        if_pos rfl, Bool.and_eq_true, Bool.and_eq_true, Bool.and_eq_true] at hgs
      obtain ⟨⟨⟨hp, -⟩, -⟩, hlen⟩ := hgs
      have hp2 : params = [] := by simpa using hp
      have hlen3 : len = sumLens args := by simpa using hlen
      subst hp2
      subst hlen3
      cases args with
      | nil => simp at hlen2
      | cons a rest =>
        cases rest with
        | nil => simp at hlen2
        | cons b rest2 =>
          cases rest2 with
          | cons c rest3 => simp at hlen2
          | nil =>
            have ha := hrec a (List.mem_cons_self a [b])
            have hb := hrec b (List.mem_cons_of_mem a (List.mem_singleton_self b))
            simp [conv, convList, foldBin, abstractZ, abstractZList, ha, hb,
              buildNode, opCalcLength,
              show List.lookup "Z3_OP_CONCAT" op_map = some (some "Concat") from rfl]
    by_cases hExtract : op = "Extract"
    · subst hExtract
      rw [goodShape, if_neg hAndOr, if_neg hNot, if_neg hCmp, if_neg hAdd,
        if_neg hConcat, if_pos rfl] at hgs
      cases params with
      | nil => simp [extractArm] at hgs
      | cons hi ps =>
        cases ps with
        | nil => simp [extractArm] at hgs
        | cons lo ps2 =>
          cases ps2 with
          | cons z ps3 => simp [extractArm] at hgs
          | nil =>
            cases args with
            | nil => simp [extractArm] at hgs
            | cons a args1 =>
              cases args1 with
              | cons b args2 => simp [extractArm] at hgs
              | nil =>
                have hgs2 : extractShape hi lo a len = true := hgs
                rw [extractShape] at hgs2
                cases hw : nodeLen a with
                | none =>
                  rw [hw] at hgs2
                  simp at hgs2
                | some w =>
                  rw [hw] at hgs2
                  simp only [Bool.and_eq_true] at hgs2
                  have hlen : len = some (hi - lo + 1).toNat := by
                    simpa using hgs2.2
                  subst hlen
                  simp [conv, abstractZ, hok, buildNode, opCalcLength,
                    show List.lookup "Z3_OP_EXTRACT" op_map
                      = some (some "Extract") from rfl]
    by_cases hZeroExt : op = "ZeroExt"
    · subst hZeroExt
      rw [goodShape, if_neg hAndOr, if_neg hNot, if_neg hCmp, if_neg hAdd,
        if_neg hConcat, if_neg hExtract, if_pos rfl] at hgs
      cases params with
      | nil => simp [zeroExtArm] at hgs
      | cons k ps =>
        cases ps with
        | cons z ps2 => simp [zeroExtArm] at hgs
        | nil =>
          cases args with
          | nil => simp [zeroExtArm] at hgs
          | cons a args1 =>
            cases args1 with
            | cons b args2 => simp [zeroExtArm] at hgs
            | nil =>
              have hgs2 : zeroExtShape k a len = true := hgs
              rw [zeroExtShape] at hgs2
              cases hw : nodeLen a with
              | none =>
                rw [hw] at hgs2
                simp at hgs2
              | some w =>
                rw [hw] at hgs2
                simp only [Bool.and_eq_true] at hgs2
                have hlen : len = some (k.toNat + w) := by simpa using hgs2.2
                subst hlen
                simp [conv, abstractZ, hok, buildNode, opCalcLength, hw,
                  show List.lookup "Z3_OP_ZERO_EXT" op_map
                    = some (some "ZeroExt") from rfl]
    by_cases hIf : op = "If"
    · subst hIf
      rw [goodShape, if_neg hAndOr, if_neg hNot, if_neg hCmp, if_neg hAdd,
        if_neg hConcat, if_neg hExtract, if_neg hZeroExt, if_pos rfl,
        Bool.and_eq_true] at hgs
      obtain ⟨hp, hshape⟩ := hgs
      have hp2 : params = [] := by simpa using hp
      subst hp2
      cases args with
      | nil => simp [iteArm] at hshape
      | cons c args1 =>
        cases args1 with
        | nil => simp [iteArm] at hshape
        | cons t args2 =>
          cases args2 with
          | nil => simp [iteArm] at hshape
          | cons e args3 =>
            cases args3 with
            | cons f args4 => simp [iteArm] at hshape
            | nil =>
              simp only [iteArm, Bool.and_eq_true] at hshape
              have hlen : len = nodeLen t := by simpa using hshape.2
              subst hlen
              simp [conv, abstractZ, hok, buildNode,
                show List.lookup "Z3_OP_ITE" op_map = some (some "If") from rfl]
    rw [goodShape, if_neg hAndOr, if_neg hNot, if_neg hCmp, if_neg hAdd,
      if_neg hConcat, if_neg hExtract, if_neg hZeroExt, if_neg hIf] at hgs
    exact Bool.noConfusion hgs

/-- C1 core: each constructible, tag- and arity-stable node round-trips
through lowering and abstraction whenever the side-table resolves each of
its symbol leaves to that leaf's metadata. -/
theorem abstractZ_conv_eq (T : SymTable) (n : Node)
    (hg : good n = true) (hs : stable n = true)
    (hT : ∀ x ∈ bvsLeaves n, symLookup T x.1 = some (x.2.1, x.2.2.1)) :
    abstractZ T (conv n) = .ok n :=
  abstractZ_conv_eq_fuel (nodeSize n) T n (le_refl _) hg hs hT

/-- C1 (amended): for every constructible IR node built from operators
whose lowering is tag- and arity-stable — that is, excluding the dunder
comparison aliases (`__ge__`/`__gt__`/`__le__`/`__lt__`, which lower to
the differently tagged unsigned comparisons) and applications of the
fold-lowered reduceable operators to more than two operands — and whose
symbol leaves are consistently named, `abstract(convert(n))` is
structurally equal to `n`: same operation tag, same argument structure,
same length.  The side-table entries recorded during lowering supply the
symbol metadata, so the hypothesis of the original claim (no free
symbolic variables, or all of them recorded) is satisfied by the
lowering itself. -/
theorem convert_abstract_roundtrip (n : Node)
    (hg : good n = true) (hs : stable n = true) (hc : symsConsistent n = true) :
    abstractZ (tableAfter n []) (conv n) = .ok n :=
  abstractZ_conv_eq (tableAfter n []) n hg hs
    (fun x hx => tableAfter_lookup_of_consistent n hc x hx)

/-- C1 counterexample: the constructible node `BVV(1,8) __ge__ BVV(2,8)`
has no free symbolic variables — so it satisfies the original claim's
hypothesis — yet `abstract(convert(n))` is not structurally equal to it:
the backend lowers the `__ge__` alias to the native unsigned comparison
(lines 183-186), which abstracts back with operation tag `UGE`. -/
theorem convert_abstract_roundtrip_cex :
    good geAliasNode = true ∧
    bvsLeaves geAliasNode = [] ∧
    abstractZ (tableAfter geAliasNode []) (conv geAliasNode) ≠ .ok geAliasNode := by
  refine ⟨by decide, rfl, ?_⟩
  intro h
  have h1 : resultOp (abstractZ (tableAfter geAliasNode []) (conv geAliasNode))
      = "UGE" := rfl
  rw [h] at h1
  exact absurd h1 (by decide)

/-- Witness for `convert_abstract_roundtrip` at a concrete node
exercising symbols (one repeated, one annotated), literals, comparison,
two-operand fold-lowered operators, extraction, extension and
if-then-else. -/
theorem convert_abstract_roundtrip_witness :
    good roundtripSampleNode = true ∧
    stable roundtripSampleNode = true ∧
    symsConsistent roundtripSampleNode = true ∧
    abstractZ (tableAfter roundtripSampleNode []) (conv roundtripSampleNode) =
      .ok roundtripSampleNode :=
  ⟨by decide, by decide, by decide,
   convert_abstract_roundtrip roundtripSampleNode (by decide) (by decide) (by decide)⟩

end Claripy
